import Mathlib

/-!
Verification of the Smart Melody Tokenizer (SMT) core: vocabulary
construction, note/token encoding and decoding, quantization, and musical
pattern detection.  Python floats are modelled as rationals (ℚ), Python
ints as ℤ or ℕ, Python strings as `String`.  Fallible code (code that can
raise and is caught by the caller) is modelled with `Option`.
-/

set_option allowUnsafeReducibility true in
attribute [semireducible] Rat.add Rat.mul Rat.sub Rat.inv Rat.neg

set_option maxRecDepth 4000

namespace SMT

/-! ## Python string helpers

`str.split("_")` and `str.startswith` are modelled on the character lists
underlying `String`.  Splitting on the single character `_` matches the
Python semantics of `split` with a one-character separator, including the
production of empty fields for leading, trailing, or doubled separators.
-/

/-- Split a character list on the underscore character; each underscore is a
separator and separators are not kept.  Always returns a nonempty list. -/
def splitU : List Char → List (List Char)
  | [] => [[]]
  | c :: rest =>
    match splitU rest with
    | [] => [[c]]
    | h :: t => if c = '_' then [] :: h :: t else (c :: h) :: t

/-- Python `token.split("_")` on a `String`. -/
def pySplitU (s : String) : List String := (splitU s.data).map String.mk

/-- Character-list prefix test. -/
def prefixChars : List Char → List Char → Bool
  | c :: cs, d :: ds => c = d && prefixChars cs ds
  | [], _ => true
  | _ :: _, _ => false

/-- Python `s.startswith(pre)`. -/
def pyStarts (pre s : String) : Bool := prefixChars pre.data s.data

/-- Python `round` on a rational: round to the nearest integer, ties to the
even integer (banker rounding). -/
def pyRound (q : ℚ) : ℤ :=
  let f := ⌊q⌋
  let r := q - (f : ℚ)
  if r < 1/2 then f
  else if (1:ℚ)/2 < r then f + 1
  else if Even f then f else f + 1

/-! ## Data model: `SMTNote` (midi_utils.SMTNote) -/

/-- Internal representation of a musical note (dataclass `SMTNote`). -/
structure SMTNote where
  pitch : ℤ
  start_time : ℚ
  end_time : ℚ
  velocity : ℤ
  pitch_name : String := ""
  duration_name : String := ""
  dynamic_name : String := ""
deriving DecidableEq, Repr

/-! ## MIDIProcessor helpers (midi_utils.MIDIProcessor) -/

/-- The twelve chromatic note names, as in `_midi_to_pitch_name` and
`_get_pitch_names` (one Python list literal; written here in four groups
of three). -/
def note_names_chromatic : List String :=
  ["C", "C#", "D"] ++ ["D#", "E", "F"] ++ ["F#", "G", "G#"] ++ ["A", "A#", "B"]

/-- `MIDIProcessor._midi_to_pitch_name`.  Python `//` and `%` are floor
division and floor modulus, hence `Int.fdiv` and `Int.emod`; the list index
`p % 12` is always in range. -/
def midi_to_pitch_name (p : ℤ) : String :=
  let octave : ℤ := p.fdiv 12 - 1
  let note : String := note_names_chromatic.getD (p.emod 12).toNat ""
  note ++ toString octave

/-- The `note_map` dictionary of `_pitch_name_to_midi`; `none` models a
`KeyError`. -/
def note_map (n : String) : Option ℤ :=
  if n = "C" then some 0 else if n = "C#" then some 1 else if n = "D" then some 2
  else if n = "D#" then some 3 else if n = "E" then some 4 else if n = "F" then some 5
  else if n = "F#" then some 6 else if n = "G" then some 7 else if n = "G#" then some 8
  else if n = "A" then some 9 else if n = "A#" then some 10 else if n = "B" then some 11
  else none

/-- Python `int(c)` on a one-character string: a decimal digit parses, any
other character raises `ValueError` (modelled as `none`). -/
def charToInt (c : Char) : Option ℤ :=
  if '0' ≤ c ∧ c ≤ '9' then some ((c.toNat : ℤ) - 48) else none

/-- `MIDIProcessor._pitch_name_to_midi`.  `none` models the exceptions the
caller catches: `IndexError` on an empty name (`pitch_name[-1]`),
`ValueError` from `int`, and `KeyError` from `note_map`. -/
def pitch_name_to_midi (s : String) : Option ℤ :=
  let cs := s.data
  let split : Option (List Char × Char) :=
    if cs.contains '#' then
      match cs.getLast? with
      | some c => some (cs.dropLast, c)
      | none => none
    else if cs.contains 's' then
      match cs.getLast? with
      | some c => some (cs.dropLast.dropLast ++ ['#'], c)
      | none => none
    else
      match cs.getLast? with
      | some c => some (cs.dropLast, c)
      | none => none
  match split with
  | none => none
  | some (noteCs, oc) =>
    match charToInt oc, note_map (String.mk noteCs) with
    | some o, some v => some ((o + 1) * 12 + v)
    | _, _ => none

/-- The keys of the `duration_map` of `_beats_to_duration_name`, in
dictionary insertion order. -/
def durKeys : List ℚ := [1/4, 3/8, 1/2, 3/4, 1, 3/2, 2, 3, 4]

/-- The name associated with a `duration_map` key (exact dictionary access;
the final default branch is unreachable because the argument is always a
key of the map). -/
def durName (q : ℚ) : String :=
  if q = 1/4 then "sixteenth" else if q = 3/8 then "dotted_sixteenth"
  else if q = 1/2 then "eighth" else if q = 3/4 then "dotted_eighth"
  else if q = 1 then "quarter" else if q = 3/2 then "dotted_quarter"
  else if q = 2 then "half" else if q = 3 then "dotted_half"
  else if q = 4 then "whole" else "quarter"

/-- `min(duration_map.keys(), key=lambda x: abs(x - duration_beats))`.
Python `min` keeps the earliest element on ties, which is a left fold over
the keys starting from the first key `1/4`. -/
def closestDuration (d : ℚ) : ℚ :=
  durKeys.foldl (fun best x => if |x - d| < |best - d| then x else best) (1/4)

/-- `MIDIProcessor._beats_to_duration_name`. -/
def beats_to_duration_name (d : ℚ) : String :=
  let c := closestDuration d
  if |d - c| < 1/10 then durName c else "quarter"

/-- `MIDIProcessor._velocity_to_dynamic`. -/
def velocity_to_dynamic (v : ℤ) : String :=
  if v < 20 then "pp"
  else if v < 40 then "p"
  else if v < 60 then "mp"
  else if v < 80 then "mf"
  else if v < 100 then "f"
  else "ff"

/-- `MIDIProcessor._dynamic_to_velocity` (`dict.get` with default 65). -/
def dynamic_to_velocity (s : String) : ℤ :=
  if s = "pp" then 25 else if s = "p" then 35 else if s = "mp" then 50
  else if s = "mf" then 65 else if s = "f" then 85 else if s = "ff" then 100
  else 65

/-- The loop body of `MIDIProcessor.quantize_notes`: quantize one note to
the beat subdivision `bs`. -/
def quantize_note (bs : ℚ) (note : SMTNote) : SMTNote :=
  let qs : ℚ := (pyRound (note.start_time / bs) : ℚ) * bs
  let d : ℚ := note.end_time - note.start_time
  let qd : ℚ := max ((pyRound (d / bs) : ℚ) * bs) bs
  { pitch := note.pitch, start_time := qs, end_time := qs + qd,
    velocity := note.velocity, pitch_name := note.pitch_name,
    duration_name := beats_to_duration_name qd,
    dynamic_name := note.dynamic_name }

/-- `MIDIProcessor.quantize_notes` with an explicit grid.  The Python
expression `1.0 / (grid / 4)` for the beat subdivision is kept verbatim. -/
def quantize_notes (notes : List SMTNote) (grid : ℕ) : List SMTNote :=
  let bs : ℚ := 1 / ((grid : ℚ) / 4)
  notes.map (quantize_note bs)

/-! ## Vocabulary (vocabulary.SMTVocabulary, default configuration)

The default configuration: octaves 3..6 with accidentals, seven durations,
six dynamics, sixteen pattern labels, `max_vocab_size = 2000`.
-/

/-- `_add_special_tokens`. -/
def special_tokens : List String :=
  ["[PAD]", "[BOS]", "[EOS]", "[MASK]", "[UNK]", "[SEP]"]

/-- `_add_structural_tokens`. -/
def structural_tokens : List String :=
  ["BAR", "PHRASE_START", "PHRASE_END", "SECTION_A", "SECTION_B", "VERSE",
   "CHORUS", "BRIDGE"]

/-- The configured duration names (default configuration). -/
def durations_config : List String :=
  ["sixteenth", "eighth", "quarter", "half", "whole", "dotted_quarter",
   "dotted_half"]

/-- The configured dynamic names (default configuration). -/
def dynamics_config : List String :=
  ["pp", "p", "mp", "mf", "f", "ff"]

/-- `_get_pitch_names` for the default configuration: octaves 3..6, with
accidentals, octave loop outermost. -/
def pitch_names : List String :=
  (List.range' 3 4).flatMap fun oct =>
    note_names_chromatic.map fun n => n ++ toString oct

/-- The compound note token `NOTE_{pitch}_{duration}_{dynamic}`. -/
def mkNoteToken (p d dy : String) : String :=
  "NOTE_" ++ p ++ "_" ++ d ++ "_" ++ dy

/-- `_add_note_tokens`: the nested pitch/duration/dynamic enumeration,
truncated at `max_vocab_size - 200 = 1800` tokens (the counter increments
only when a token is appended, so the cap is a plain `take`). -/
def note_tokens : List String :=
  (pitch_names.flatMap fun p =>
    durations_config.flatMap fun d =>
      dynamics_config.map fun dy => mkNoteToken p d dy).take (2000 - 200)

/-- `_add_rest_tokens`; `duration.replace(".", "_")` replaces the dot
character (the durations hold no dots, so this is the identity here). -/
def rest_tokens : List String :=
  durations_config.map fun d =>
    "REST_" ++ String.mk (d.data.map fun c => if c = '.' then '_' else c)

/-- The configured pattern labels, category dictionaries in insertion order
(scales, intervals, arpeggios, rhythmic). -/
def pattern_labels : List String :=
  ["scale_up", "scale_down", "chromatic_up", "chromatic_down",
   "step", "skip", "leap", "octave",
   "arpeggio_major", "arpeggio_minor", "arpeggio_dim", "arpeggio_aug",
   "syncopated", "steady", "accelerando", "ritardando"]

/-- `_add_pattern_tokens`: `PATTERN_{label.upper()}` (ASCII uppercase). -/
def pattern_tokens : List String :=
  pattern_labels.map fun l => "PATTERN_" ++ String.mk (l.data.map Char.toUpper)

/-- `_add_control_tokens`. -/
def control_tokens : List String :=
  ["TEMPO_SLOW", "TEMPO_MEDIUM", "TEMPO_FAST", "TEMPO_VERY_FAST",
   "KEY_C_MAJOR", "KEY_G_MAJOR", "KEY_D_MAJOR", "KEY_A_MAJOR",
   "KEY_F_MAJOR", "KEY_BB_MAJOR", "KEY_A_MINOR", "KEY_E_MINOR",
   "TIME_4_4", "TIME_3_4", "TIME_2_4", "TIME_6_8",
   "STYLE_LEGATO", "STYLE_STACCATO", "STYLE_MARCATO",
   "ACCENT", "TENUTO", "SLUR_START", "SLUR_END"]

/-- `_build_vocabulary`: the families in construction order. -/
def vocab : List String :=
  special_tokens ++ structural_tokens ++ note_tokens ++ rest_tokens ++
    pattern_tokens ++ control_tokens

/-- `self.size = len(self.vocab)`. -/
def vocabSize : ℕ := vocab.length

/-- The index assigned to a token by the dictionary comprehension
`{token: idx for idx, token in enumerate(vocab)}`: the LAST index at which
the token occurs (later duplicates overwrite earlier entries), offset by
`k`. -/
def lastIdxFrom (l : List String) (k : ℕ) (t : String) : Option ℕ :=
  match l with
  | [] => none
  | x :: xs =>
    match lastIdxFrom xs (k + 1) t with
    | some j => some j
    | none => if x = t then some k else none

/-- `self.token_to_id` as a partial map. -/
def token_to_id (t : String) : Option ℕ := lastIdxFrom vocab 0 t

/-- `self.id_to_token` as a partial map: the pair `(idx, token)` is present
exactly when `idx` is the index `token_to_id` assigned to `token`. -/
def id_to_token (i : ℕ) : Option String :=
  match vocab.get? i with
  | some tok => if token_to_id tok = some i then some tok else none
  | none => none

/-- `SMTVocabulary.encode_token`: `token_to_id.get(token,
token_to_id["[UNK]"])`.  `[UNK]` is always present in the vocabulary. -/
def encode_token (t : String) : ℕ :=
  match token_to_id t with
  | some i => i
  | none => (token_to_id "[UNK]").getD 0

/-- `SMTVocabulary.decode_token`: `id_to_token.get(token_id, "[UNK]")`. -/
def decode_token (i : ℕ) : String :=
  match id_to_token i with
  | some tok => tok
  | none => "[UNK]"

/-- `SMTVocabulary.encode_tokens`. -/
def encode_tokens (ts : List String) : List ℕ := ts.map encode_token

/-- `SMTVocabulary.decode_tokens`. -/
def decode_tokens (ids : List ℕ) : List String := ids.map decode_token

/-! ## Tokenizer (tokenizer.SmartMelodyTokenizer, default midi_config:
quantization_grid 16, beats_per_bar 4.0) -/

/-- `midi_config["beats_per_bar"]` (default 4.0). -/
def beatsPerBar : ℚ := 4

/-- `midi_config["quantization_grid"]` (default 16). -/
def quantizationGrid : ℕ := 16

/-- `_create_note_token`: uses the precomputed human-readable fields. -/
def create_note_token (n : SMTNote) : String :=
  mkNoteToken n.pitch_name n.duration_name n.dynamic_name

/-- `_create_rest_token`. -/
def create_rest_token (d : ℚ) : String :=
  "REST_" ++ beats_to_duration_name d

/-- `_duration_name_to_beats` (`dict.get` with default 1.0). -/
def duration_name_to_beats (s : String) : ℚ :=
  if s = "sixteenth" then 1/4 else if s = "dotted_sixteenth" then 3/8
  else if s = "eighth" then 1/2 else if s = "dotted_eighth" then 3/4
  else if s = "quarter" then 1 else if s = "dotted_quarter" then 3/2
  else if s = "half" then 2 else if s = "dotted_half" then 3
  else if s = "whole" then 4
  else 1

/-- Python `"_".join(parts)`. -/
def joinU : List String → String
  | [] => ""
  | [x] => x
  | x :: xs => x ++ "_" ++ joinU xs

/-- `_parse_duration_from_token`. -/
def parse_duration_from_token (tok : String) : ℚ :=
  let parts := pySplitU tok
  if 2 ≤ parts.length then duration_name_to_beats (joinU parts.tail)
  else 1/4

/-- `_parse_note_token`.  The pattern requires exactly four fields with the
literal head `NOTE`; `none` also models the caught exception from
`_pitch_name_to_midi`.  `_dynamic_to_velocity` and `_duration_name_to_beats`
are total (dictionary defaults), so they never cause a skip. -/
def parse_note_token (token : String) (start : ℚ) : Option SMTNote :=
  match pySplitU token with
  | ["NOTE", pn, dn, dyn] =>
    match pitch_name_to_midi pn with
    | some p =>
      some { pitch := p, start_time := start,
             end_time := start + duration_name_to_beats dn,
             velocity := dynamic_to_velocity dyn,
             pitch_name := pn, duration_name := dn, dynamic_name := dyn }
    | none => none
  | _ => none

/-- The number of iterations of the bar-marker loop
`while note.start_time >= current_bar_start + beats_per_bar`, in closed
form: how many whole bars fit in `start - barStart`. -/
def barCount (start barStart : ℚ) : ℕ :=
  (((start - barStart) / beatsPerBar).floor).toNat

/-- The loop body of `_notes_to_tokens`, carrying `current_time` and
`current_bar_start`; the final `[EOS]` is appended at the end. -/
def notes_to_tokens_aux : List SMTNote → ℚ → ℚ → List String
  | [], _, _ => ["[EOS]"]
  | n :: rest, ct, barStart =>
    let k := barCount n.start_time barStart
    let restToks : List String :=
      if ct + 1/10 < n.start_time then [create_rest_token (n.start_time - ct)]
      else []
    (List.replicate k "BAR" ++ restToks ++ [create_note_token n]) ++
      notes_to_tokens_aux rest n.end_time (barStart + beatsPerBar * k)

/-- `_notes_to_tokens`. -/
def notes_to_tokens (notes : List SMTNote) : List String :=
  "[BOS]" :: notes_to_tokens_aux notes 0 0

/-- The loop of `_tokens_to_notes`, carrying `current_time` and
`current_bar`. -/
def tokens_to_notes_aux : List String → ℚ → ℤ → List SMTNote
  | [], _, _ => []
  | tok :: rest, ct, cb =>
    if tok = "[BOS]" ∨ tok = "[EOS]" ∨ tok = "[PAD]" then
      tokens_to_notes_aux rest ct cb
    else if tok = "BAR" then
      tokens_to_notes_aux rest (((cb + 1 : ℤ) : ℚ) * beatsPerBar) (cb + 1)
    else if pyStarts "REST_" tok then
      tokens_to_notes_aux rest (ct + parse_duration_from_token tok) cb
    else if pyStarts "NOTE_" tok then
      match parse_note_token tok ct with
      | some n => n :: tokens_to_notes_aux rest n.end_time cb
      | none => tokens_to_notes_aux rest ct cb
    else
      tokens_to_notes_aux rest ct cb

/-- `_tokens_to_notes`. -/
def tokens_to_notes (tokens : List String) : List SMTNote :=
  tokens_to_notes_aux tokens 0 0

/-- The metadata dictionary of `encode_notes`; the keys absent in the
empty-input branch are modelled as `Option` fields defaulting to `none`. -/
structure Metadata where
  num_notes : ℕ
  duration : ℚ
  num_tokens : Option ℕ := none
  compression_ratio : Option ℚ := none
  source : Option String := none
  pitch_range : Option (ℤ × ℤ) := none
deriving DecidableEq, Repr

/-- The result dictionary of `encode_notes`. -/
structure EncodeResult where
  tokens : List String
  token_ids : List ℕ
  metadata : Metadata
  notes : List SMTNote
deriving DecidableEq, Repr

/-- `SmartMelodyTokenizer.encode_notes`.  The empty-input branch
short-circuits before quantization and the main loop.  In the nonempty
branch `tokens` is always nonempty (it contains `[BOS]`), the note list is
nonempty, and the `getD` defaults are unreachable. -/
def encode_notes (notes : List SMTNote) (source_info : String) : EncodeResult :=
  if notes = [] then
    { tokens := ["[BOS]", "[EOS]"],
      token_ids := [encode_token "[BOS]", encode_token "[EOS]"],
      metadata := { num_notes := 0, duration := 0 },
      notes := [] }
  else
    let quantized := quantize_notes notes quantizationGrid
    let tokens := notes_to_tokens quantized
    { tokens := tokens,
      token_ids := encode_tokens tokens,
      metadata :=
        { num_notes := notes.length,
          duration := ((notes.getLast?).map SMTNote.end_time).getD 0,
          num_tokens := some tokens.length,
          compression_ratio := some ((notes.length : ℚ) / (tokens.length : ℚ)),
          source := some source_info,
          pitch_range := some ((((notes.map SMTNote.pitch).min?).getD 0),
                               (((notes.map SMTNote.pitch).max?).getD 0)) },
      notes := quantized }

/-! ## Pattern detector (patterns.PatternDetector, default configuration:
min_pattern_length 3, max_pattern_length 8, sequence_min_repetitions 2,
confidence_threshold 0.7) -/

/-- `patterns.MusicalPattern`. -/
structure MusicalPattern where
  pattern_type : String
  start_index : ℕ
  end_index : ℕ
  confidence : ℚ
  description : String
  notes : List SMTNote
deriving DecidableEq, Repr

/-- Consecutive pitch intervals `pitches[i+1] - pitches[i]`. -/
def intervalsOf (pitches : List ℤ) : List ℤ :=
  List.zipWith (fun a b => a - b) pitches.tail pitches

/-- `np.mean` over a list of integers (callers pass nonempty lists). -/
def meanQ (l : List ℤ) : ℚ := (l.sum : ℚ) / (l.length : ℚ)

/-- `_analyze_scale_pattern`. -/
def analyze_scale_pattern (segment : List SMTNote) (start_idx : ℕ) :
    Option MusicalPattern :=
  if segment.length < 3 then none
  else
    let intervals := intervalsOf (segment.map SMTNote.pitch)
    let stepwise : ℚ :=
      ((intervals.filter fun i => |i| ≤ 2).length : ℚ) / (intervals.length : ℚ)
    if 4/5 ≤ stepwise then
      let dir := if 0 < meanQ intervals then "up" else "down"
      some { pattern_type := "scale_" ++ dir,
             start_index := start_idx,
             end_index := start_idx + segment.length - 1,
             confidence := stepwise * (4/5) +
               (if 5 ≤ segment.length then 1/5 else 0),
             description := "Scale passage (" ++ dir ++ ") with " ++
               toString segment.length ++ " notes",
             notes := segment }
    else none

/-- `_detect_scales`: windows of length 3..min(8, n) starting at each index;
the `break` on `start + length > len(notes)` is the filter below; a window
is kept when analysis succeeds with local confidence at least 0.6. -/
def detect_scales (notes : List SMTNote) : List MusicalPattern :=
  let n := notes.length
  let maxLen := min 8 n
  (List.range (n + 1 - 3)).flatMap fun start =>
    ((List.range' 3 (maxLen + 1 - 3)).filter fun len => start + len ≤ n).filterMap
      fun len =>
        match analyze_scale_pattern ((notes.drop start).take len) start with
        | some p => if 3/5 ≤ p.confidence then some p else none
        | none => none

/-- `_classify_chord_type`: pitch classes relative to the first pitch; the
in-place sort has no effect on the set-membership tests and is omitted. -/
def classify_chord_type (pitches : List ℤ) : String :=
  if pitches.length < 3 then "unknown"
  else
    let base := pitches.headD 0
    let s : Finset ℤ := (pitches.map fun p => (p - base).emod 12).toFinset
    if ({0, 4, 7} : Finset ℤ) ⊆ s then "major"
    else if ({0, 3, 7} : Finset ℤ) ⊆ s then "minor"
    else if ({0, 3, 6} : Finset ℤ) ⊆ s then "diminished"
    else if ({0, 4, 8} : Finset ℤ) ⊆ s then "augmented"
    else "unknown"

/-- `_analyze_arpeggio_pattern`. -/
def analyze_arpeggio_pattern (segment : List SMTNote) (start_idx : ℕ) :
    Option MusicalPattern :=
  if segment.length < 3 then none
  else
    let pitches := segment.map SMTNote.pitch
    let intervals := intervalsOf pitches
    let chordRatio : ℚ :=
      ((intervals.filter fun i => 3 ≤ |i| ∧ |i| ≤ 5).length : ℚ) /
        (intervals.length : ℚ)
    if 3/5 ≤ chordRatio then
      let ct := classify_chord_type pitches
      let dir := if 0 < meanQ intervals then "up" else "down"
      some { pattern_type := "arpeggio_" ++ ct,
             start_index := start_idx,
             end_index := start_idx + segment.length - 1,
             confidence := chordRatio * (7/10) +
               (if 4 ≤ segment.length then 3/10 else 0),
             description := "Arpeggio (" ++ ct ++ ", " ++ dir ++ ") with " ++
               toString segment.length ++ " notes",
             notes := segment }
    else none

/-- `_detect_arpeggios` (same windowing as scales; the minimum window is
`max(3, min_pattern_length) = 3`). -/
def detect_arpeggios (notes : List SMTNote) : List MusicalPattern :=
  let n := notes.length
  let maxLen := min 8 n
  (List.range (n + 1 - 3)).flatMap fun start =>
    ((List.range' 3 (maxLen + 1 - 3)).filter fun len => start + len ≤ n).filterMap
      fun len =>
        match analyze_arpeggio_pattern ((notes.drop start).take len) start with
        | some p => if 3/5 ≤ p.confidence then some p else none
        | none => none

/-- The interval profile of the `ps`-note block of `notes` starting at
`pos`. -/
def blockIntervals (notes : List SMTNote) (pos ps : ℕ) : List ℤ :=
  intervalsOf (((notes.drop pos).take ps).map SMTNote.pitch)

/-- The repetition-counting `while` loop of `_find_sequence_pattern`: count
how many consecutive blocks after `pos` (inclusive) still fit and match the
interval profile `ivs`.  Callers pass block size `ps ≥ 2`, so
`notes.length + 1` units of fuel always outlast the loop. -/
def seqRepsAux (notes : List SMTNote) (ivs : List ℤ) (ps : ℕ) :
    ℕ → ℕ → ℕ
  | _, 0 => 0
  | pos, fuel + 1 =>
    if pos + ps ≤ notes.length ∧ blockIntervals notes pos ps = ivs then
      1 + seqRepsAux notes ivs ps (pos + ps) fuel
    else 0

/-- The repetition count computed by `_find_sequence_pattern`: the leading
block plus every immediately following block with the same interval
profile. -/
def seq_repetitions (notes : List SMTNote) (start ps : ℕ) : ℕ :=
  1 + seqRepsAux notes (blockIntervals notes start ps) ps (start + ps)
    (notes.length + 1)

/-- `_find_sequence_pattern`. -/
def find_sequence_pattern (notes : List SMTNote) (start ps : ℕ) :
    Option MusicalPattern :=
  if notes.length < start + ps * 2 then none
  else
    let reps := seq_repetitions notes start ps
    if 2 ≤ reps then
      some { pattern_type := "sequence",
             start_index := start,
             end_index := start + reps * ps - 1,
             confidence := min (9/10) (1/2 + ((reps : ℚ) - 2) * (3/20)),
             description := "Melodic sequence repeated " ++ toString reps ++
               " times",
             notes := (notes.drop start).take (reps * ps) }
    else none

/-- `_detect_sequences`: block sizes 2..4; the start index ranges over
`range(len(notes) - pattern_size * 2)` (truncated subtraction matches the
empty range Python produces for a negative argument). -/
def detect_sequences (notes : List SMTNote) : List MusicalPattern :=
  (List.range' 2 3).flatMap fun ps =>
    (List.range (notes.length - ps * 2)).filterMap fun start =>
      find_sequence_pattern notes start ps

/-- `_detect_intervals`: a leap (more than 4 semitones) followed by a step
(at most 2), over every consecutive triple. -/
def detect_intervals (notes : List SMTNote) : List MusicalPattern :=
  if notes.length < 3 then []
  else
    (List.range (notes.length - 2)).filterMap fun i =>
      match notes.drop i with
      | a :: b :: c :: _ =>
        if 4 < |b.pitch - a.pitch| ∧ |c.pitch - b.pitch| ≤ 2 then
          let dir := if a.pitch < b.pitch then "up" else "down"
          some { pattern_type := "leap_" ++ dir,
                 start_index := i, end_index := i + 2,
                 confidence := 7/10,
                 description := "Leap " ++ dir ++ " followed by step",
                 notes := [a, b, c] }
        else none
      | _ => none

/-- The index set `set(range(start_index, end_index + 1))` of a pattern. -/
def patIndices (p : MusicalPattern) : Finset ℕ :=
  Finset.Icc p.start_index p.end_index

/-- The greedy acceptance loop of `_resolve_overlaps`. -/
def resolve_overlaps_aux : List MusicalPattern → Finset ℕ → List MusicalPattern
  | [], _ => []
  | p :: rest, used =>
    if Disjoint (patIndices p) used then
      p :: resolve_overlaps_aux rest (used ∪ patIndices p)
    else
      resolve_overlaps_aux rest used

/-- `_resolve_overlaps`: stable sort by confidence descending, then greedy
acceptance of patterns whose index range avoids every accepted range. -/
def resolve_overlaps (ps : List MusicalPattern) : List MusicalPattern :=
  resolve_overlaps_aux
    (ps.mergeSort fun a b => decide (b.confidence ≤ a.confidence)) ∅

/-- `PatternDetector.detect_patterns`. -/
def detect_patterns (notes : List SMTNote) : List MusicalPattern :=
  if notes.length < 3 then []
  else
    let ps := detect_scales notes ++ detect_arpeggios notes ++
      detect_sequences notes ++ detect_intervals notes
    resolve_overlaps (ps.filter fun p => 7/10 ≤ p.confidence)

/-! ## Derived definitions used by the statements -/

/-- Python `"_".join` on character lists; the left inverse of `splitU`. -/
def joinUChars : List (List Char) → List Char
  | [] => []
  | [x] => x
  | x :: y :: xs => x ++ '_' :: joinUChars (y :: xs)

/-- The beat values of the configured duration set
(`sixteenth, eighth, quarter, half, whole, dotted_quarter, dotted_half`). -/
def configuredDurationsQ : List ℚ := [1/4, 1/2, 1, 2, 4, 3/2, 3]

/-- The beat values of the non-dotted configured durations, whose names hold
no underscore. -/
def cleanDurationsQ : List ℚ := [1/4, 1/2, 1, 2, 4]

/-- The human-readable fields of a note agree with its numeric fields, and
the duration is drawn from the configured duration set (the premise of the
round-trip claim as stated). -/
def consistentNote (n : SMTNote) : Prop :=
  n.end_time - n.start_time ∈ configuredDurationsQ ∧
  n.pitch_name = midi_to_pitch_name n.pitch ∧
  n.duration_name = beats_to_duration_name (n.end_time - n.start_time) ∧
  n.dynamic_name = velocity_to_dynamic n.velocity

instance (n : SMTNote) : Decidable (consistentNote n) := by
  unfold consistentNote; infer_instance

/-- The premise of the amended round-trip claim: additionally the duration
is not dotted and the pitch lies in octaves 0..9. -/
def wfNote (n : SMTNote) : Prop :=
  12 ≤ n.pitch ∧ n.pitch ≤ 127 ∧
  n.end_time - n.start_time ∈ cleanDurationsQ ∧
  n.pitch_name = midi_to_pitch_name n.pitch ∧
  n.duration_name = beats_to_duration_name (n.end_time - n.start_time) ∧
  n.dynamic_name = velocity_to_dynamic n.velocity

instance (n : SMTNote) : Decidable (wfNote n) := by
  unfold wfNote; infer_instance

/-- The note sequence has no timing gaps: starting from time `t`, each note
begins where the previous one ends. -/
def gapless : ℚ → List SMTNote → Prop
  | _, [] => True
  | t, n :: rest => n.start_time = t ∧ gapless n.end_time rest

instance gaplessDec : (t : ℚ) → (l : List SMTNote) → Decidable (gapless t l)
  | _, [] => .isTrue trivial
  | _, n :: rest =>
    have : Decidable (gapless n.end_time rest) := gaplessDec n.end_time rest
    inferInstanceAs (Decidable (_ ∧ _))

/-- A dotted-duration note used to refute the round-trip claim as stated:
all its human-readable fields are consistent and its duration is in the
configured set. -/
def dottedNote : SMTNote :=
  { pitch := 60, start_time := 0, end_time := 3/2, velocity := 65,
    pitch_name := "C4", duration_name := "dotted_quarter",
    dynamic_name := "mf" }

/-- A quarter note on C4 used in several witnesses. -/
def c4Quarter : SMTNote :=
  { pitch := 60, start_time := 0, end_time := 1, velocity := 65,
    pitch_name := "C4", duration_name := "quarter", dynamic_name := "mf" }

/-- An E4 quarter note starting at beat 1. -/
def e4Quarter : SMTNote :=
  { pitch := 64, start_time := 1, end_time := 2, velocity := 65,
    pitch_name := "E4", duration_name := "quarter", dynamic_name := "mf" }

/-- Notes C4 E4 C4 E4, two blocks of two notes with equal interval
profiles, used to refute the sequence-detection claim as stated. -/
def fourAlternating : List SMTNote :=
  [c4Quarter, e4Quarter,
   { pitch := 60, start_time := 2, end_time := 3, velocity := 65,
     pitch_name := "C4", duration_name := "quarter", dynamic_name := "mf" },
   { pitch := 64, start_time := 3, end_time := 4, velocity := 65,
     pitch_name := "E4", duration_name := "quarter", dynamic_name := "mf" }]

/-- Notes C4 E4 C4 E4 G4: the same two equal blocks followed by one more
note, used as a witness for the amended sequence-detection claim. -/
def fiveNotes : List SMTNote :=
  fourAlternating ++
    [{ pitch := 67, start_time := 4, end_time := 5, velocity := 65,
       pitch_name := "G4", duration_name := "quarter", dynamic_name := "mf" }]

/-- The sequence pattern detected on `fiveNotes` at start 0 with block size
2: two repetitions, spanning indices 0..3, with confidence 0.5. -/
def seqPatWitness : MusicalPattern :=
  { pattern_type := "sequence", start_index := 0, end_index := 3,
    confidence := 1/2, description := "Melodic sequence repeated 2 times",
    notes := fourAlternating }

/-! ## Theorems -/

/-! ### Underscore splitting -/

theorem splitU_cons (c : Char) (cs : List Char) :
    splitU (c :: cs) =
      match splitU cs with
      | [] => [[c]]
      | h :: t => if c = '_' then [] :: h :: t else (c :: h) :: t := rfl

theorem splitU_ne_nil (cs : List Char) : splitU cs ≠ [] := by
  cases cs with
  | nil => simp [splitU]
  | cons c rest =>
    rw [splitU_cons]
    rcases h : splitU rest with _ | ⟨hd, tl⟩
    · simp
    · dsimp only
      split <;> simp

theorem joinUChars_splitU (cs : List Char) : joinUChars (splitU cs) = cs := by
  induction cs with
  | nil => rfl
  | cons c rest ih =>
    rw [splitU_cons]
    rcases h : splitU rest with _ | ⟨hd, tl⟩
    · exact absurd h (splitU_ne_nil rest)
    · rw [h] at ih
      dsimp only
      by_cases hc : c = '_'
      · subst hc
        simp [joinUChars, ih]
      · rw [if_neg hc]
        cases tl with
        | nil =>
          simp only [joinUChars] at ih ⊢
          rw [ih]
        | cons a b =>
          simp only [joinUChars] at ih ⊢
          rw [List.cons_append, ih]

theorem splitU_inj {a b : List Char} (h : splitU a = splitU b) : a = b := by
  have := congrArg joinUChars h
  rwa [joinUChars_splitU, joinUChars_splitU] at this

theorem splitU_no_sep {cs : List Char} (h : '_' ∉ cs) : splitU cs = [cs] := by
  induction cs with
  | nil => rfl
  | cons c rest ih =>
    simp only [List.mem_cons, not_or] at h
    rw [splitU_cons, ih h.2]
    dsimp only
    rw [if_neg (fun hc => h.1 hc.symm)]

theorem splitU_append_sep {a : List Char} (rest : List Char) (h : '_' ∉ a) :
    splitU (a ++ '_' :: rest) = a :: splitU rest := by
  induction a with
  | nil =>
    rw [List.nil_append, splitU_cons]
    rcases hr : splitU rest with _ | ⟨hd, tl⟩
    · exact absurd hr (splitU_ne_nil rest)
    · simp
  | cons c a' ih =>
    simp only [List.mem_cons, not_or] at h
    rw [List.cons_append, splitU_cons, ih h.2]
    dsimp only
    rw [if_neg (fun hc => h.1 hc.symm)]

theorem splitU_append_last {b : List Char} (a : List Char) (h : '_' ∉ b) :
    splitU (a ++ '_' :: b) = splitU a ++ [b] := by
  induction a with
  | nil =>
    rw [List.nil_append, splitU_cons, splitU_no_sep h]
    rfl
  | cons c a' ih =>
    rcases ha : splitU a' with _ | ⟨hd, tl⟩
    · exact absurd ha (splitU_ne_nil a')
    · rw [List.cons_append, splitU_cons, ih, splitU_cons, ha]
      simp only [List.cons_append]
      split <;> simp

/-! ### Prefix facts -/

theorem prefixChars_same_append (a : List Char) :
    ∀ b c, prefixChars (a ++ b) (a ++ c) = prefixChars b c := by
  induction a with
  | nil => intro b c; rfl
  | cons x a' ih => intro b c; simp [prefixChars, ih]

theorem prefixChars_append_self (a b : List Char) :
    prefixChars a (a ++ b) = true := by
  have := prefixChars_same_append a [] b
  simpa using this

/-! ### The token-to-id scan -/

theorem lastIdxFrom_eq_none {t : String} :
    ∀ {l : List String} (k : ℕ), t ∉ l → lastIdxFrom l k t = none := by
  intro l
  induction l with
  | nil => intro k _; rfl
  | cons x xs ih =>
    intro k h
    simp only [List.mem_cons, not_or] at h
    simp only [lastIdxFrom, ih (k + 1) h.2]
    rw [if_neg (fun hx => h.1 hx.symm)]

theorem lastIdxFrom_isSome {t : String} :
    ∀ {l : List String} (k : ℕ), t ∈ l → ∃ j, lastIdxFrom l k t = some j := by
  intro l
  induction l with
  | nil => intro k h; exact absurd h (List.not_mem_nil t)
  | cons x xs ih =>
    intro k h
    rcases hrec : lastIdxFrom xs (k + 1) t with _ | j
    · rcases List.mem_cons.mp h with rfl | hmem
      · refine ⟨k, ?_⟩
        simp [lastIdxFrom, hrec]
      · obtain ⟨j, hj⟩ := ih (k + 1) hmem
        rw [hj] at hrec
        exact absurd hrec (by simp)
    · exact ⟨j, by simp [lastIdxFrom, hrec]⟩

theorem lastIdxFrom_get {t : String} :
    ∀ {l : List String} {k j : ℕ}, lastIdxFrom l k t = some j →
      k ≤ j ∧ l.get? (j - k) = some t := by
  intro l
  induction l with
  | nil => intro k j h; exact absurd h (by simp [lastIdxFrom])
  | cons x xs ih =>
    intro k j h
    simp only [lastIdxFrom] at h
    rcases hrec : lastIdxFrom xs (k + 1) t with _ | j'
    · rw [hrec] at h
      dsimp only at h
      by_cases hx : x = t
      · rw [if_pos hx] at h
        obtain rfl := Option.some_inj.mp h
        exact ⟨le_refl k, by simp [hx]⟩
      · rw [if_neg hx] at h
        exact absurd h (by simp)
    · rw [hrec] at h
      obtain ⟨hk, hget⟩ := ih hrec
      have hj : j' = j := Option.some_inj.mp h
      rw [← hj]
      refine ⟨by omega, ?_⟩
      have h2 : j' - k = (j' - (k + 1)) + 1 := by omega
      rw [h2]
      simpa using hget

theorem lastIdxFrom_of_nodup :
    ∀ {l : List String}, l.Nodup → ∀ {i : ℕ} {t : String} (k : ℕ),
      l.get? i = some t → lastIdxFrom l k t = some (k + i) := by
  intro l
  induction l with
  | nil => intro _ i t k h; simp at h
  | cons x xs ih =>
    intro hn i t k h
    obtain ⟨hx, hxs⟩ := List.nodup_cons.mp hn
    cases i with
    | zero =>
      simp only [List.get?] at h
      obtain rfl := Option.some_inj.mp h
      simp [lastIdxFrom, lastIdxFrom_eq_none (k + 1) hx]
    | succ i' =>
      simp only [List.get?] at h
      have := ih hxs (k + 1) h
      simp only [lastIdxFrom, this]
      congr 1
      omega

/-! ### Vocabulary Nodup -/

theorem data_mkNoteToken (p d dy : String) :
    (mkNoteToken p d dy).data =
      "NOTE".data ++ '_' :: (p.data ++ '_' :: (d.data ++ '_' :: dy.data)) := by
  simp only [mkNoteToken, String.data_append]
  simp

theorem splitU_mkNoteToken {p dy : String} (d : String)
    (hp : '_' ∉ p.data) (hy : '_' ∉ dy.data) :
    splitU (mkNoteToken p d dy).data =
      "NOTE".data :: p.data :: (splitU d.data ++ [dy.data]) := by
  rw [data_mkNoteToken]
  rw [splitU_append_sep _ (by decide)]
  rw [splitU_append_sep _ hp]
  rw [splitU_append_last _ hy]

theorem mkNoteToken_inj {p p' d d' dy dy' : String}
    (hp : '_' ∉ p.data) (hp' : '_' ∉ p'.data)
    (hy : '_' ∉ dy.data) (hy' : '_' ∉ dy'.data)
    (h : mkNoteToken p d dy = mkNoteToken p' d' dy') :
    p = p' ∧ d = d' ∧ dy = dy' := by
  have hs : splitU (mkNoteToken p d dy).data =
      splitU (mkNoteToken p' d' dy').data := congrArg (fun s => splitU s.data) h
  rw [splitU_mkNoteToken d hp hy, splitU_mkNoteToken d' hp' hy'] at hs
  obtain ⟨-, hps, htail⟩ := by
    simpa only [List.cons.injEq] using hs
  have hrev := congrArg List.reverse htail
  simp only [List.reverse_cons, List.cons.injEq, List.reverse_append,
    List.singleton_append, List.reverse_nil, List.nil_append] at hrev
  obtain ⟨hdy, hdrev⟩ := hrev
  have hd : splitU d.data = splitU d'.data := by
    have := congrArg List.reverse hdrev
    simpa using this
  exact ⟨String.ext hps, String.ext (splitU_inj hd), String.ext hdy⟩

theorem pitch_names_no_sep : ∀ p ∈ pitch_names, '_' ∉ p.data := by decide

theorem dynamics_no_sep : ∀ d ∈ dynamics_config, '_' ∉ d.data := by decide

theorem pitch_names_nodup : pitch_names.Nodup := by decide

theorem durations_nodup : durations_config.Nodup := by decide

theorem dynamics_nodup : dynamics_config.Nodup := by decide

theorem note_tokens_full_nodup :
    (pitch_names.flatMap fun p => durations_config.flatMap fun d =>
      dynamics_config.map fun dy => mkNoteToken p d dy).Nodup := by
  rw [List.nodup_flatMap]
  refine ⟨fun p hp => ?_, ?_⟩
  · rw [List.nodup_flatMap]
    refine ⟨fun d _ => ?_, ?_⟩
    · refine List.Nodup.map_on ?_ dynamics_nodup
      intro y hy y' hy' heq
      exact (mkNoteToken_inj (pitch_names_no_sep p hp) (pitch_names_no_sep p hp)
        (dynamics_no_sep y hy) (dynamics_no_sep y' hy') heq).2.2
    · refine List.Pairwise.imp_of_mem ?_ durations_nodup
      intro d d' _ _ hne
      intro tok h1 h2
      rw [List.mem_map] at h1 h2
      obtain ⟨y, hy, rfl⟩ := h1
      obtain ⟨y', hy', heq⟩ := h2
      exact hne (mkNoteToken_inj (pitch_names_no_sep p hp) (pitch_names_no_sep p hp)
        (dynamics_no_sep y' hy') (dynamics_no_sep y hy) heq).2.1.symm
  · refine List.Pairwise.imp_of_mem ?_ pitch_names_nodup
    intro p p' hp hp' hne
    intro tok h1 h2
    rw [List.mem_flatMap] at h1 h2
    obtain ⟨d, _, h1⟩ := h1
    obtain ⟨d', _, h2⟩ := h2
    rw [List.mem_map] at h1 h2
    obtain ⟨y, hy, rfl⟩ := h1
    obtain ⟨y', hy', heq⟩ := h2
    exact hne (mkNoteToken_inj (pitch_names_no_sep p' hp') (pitch_names_no_sep p hp)
      (dynamics_no_sep y' hy') (dynamics_no_sep y hy) heq).1.symm

theorem note_tokens_nodup : note_tokens.Nodup := by
  rw [note_tokens]
  exact (List.take_sublist _ _).nodup note_tokens_full_nodup

theorem mem_note_tokens_starts {t : String} (h : t ∈ note_tokens) :
    pyStarts "NOTE_" t = true := by
  rw [note_tokens] at h
  have h' := List.mem_of_mem_take h
  rw [List.mem_flatMap] at h'
  obtain ⟨p, _, h'⟩ := h'
  rw [List.mem_flatMap] at h'
  obtain ⟨d, _, h'⟩ := h'
  rw [List.mem_map] at h'
  obtain ⟨y, _, rfl⟩ := h'
  have hdata : (mkNoteToken p d y).data =
      "NOTE_".data ++ (p.data ++ '_' :: (d.data ++ '_' :: y.data)) := by
    rw [data_mkNoteToken]
    rfl
  rw [pyStarts, hdata]
  exact prefixChars_append_self _ _

/-- From a family in which no token has the `NOTE_` prefix, no note token is
a member. -/
theorem not_mem_of_starts {l : List String}
    (hl : ∀ b ∈ l, pyStarts "NOTE_" b = false) {a : String}
    (ha : pyStarts "NOTE_" a = true) : a ∉ l := by
  intro hmem
  rw [hl a hmem] at ha
  exact Bool.false_ne_true ha

theorem disjoint_of_ball {l₁ l₂ : List String} (h : ∀ a ∈ l₁, a ∉ l₂) :
    l₁.Disjoint l₂ := fun a ha hb => h a ha hb

theorem disjoint_note_right {l : List String}
    (hl : ∀ b ∈ l, pyStarts "NOTE_" b = false) : note_tokens.Disjoint l :=
  fun _ ha hb => not_mem_of_starts hl (mem_note_tokens_starts ha) hb

theorem disjoint_note_left {l : List String}
    (hl : ∀ b ∈ l, pyStarts "NOTE_" b = false) : l.Disjoint note_tokens :=
  fun _ hb ha => not_mem_of_starts hl (mem_note_tokens_starts ha) hb

theorem vocab_nodup : vocab.Nodup := by
  rw [vocab]
  simp only [List.nodup_append, List.disjoint_append_left,
    List.disjoint_append_right]
  repeat' apply And.intro
  all_goals first
    | exact note_tokens_nodup
    | exact disjoint_note_left (by decide)
    | exact disjoint_note_right (by decide)
    | exact disjoint_of_ball (by decide)
    | decide

theorem token_to_id_of_get? {i : ℕ} {t : String} (h : vocab.get? i = some t) :
    token_to_id t = some i := by
  have := lastIdxFrom_of_nodup vocab_nodup 0 h
  simpa [token_to_id] using this

theorem encode_of_get? {i : ℕ} {t : String} (h : vocab.get? i = some t) :
    encode_token t = i := by
  unfold encode_token
  rw [token_to_id_of_get? h]

theorem decode_of_get? {i : ℕ} {t : String} (h : vocab.get? i = some t) :
    decode_token i = t := by
  unfold decode_token id_to_token
  rw [h]
  dsimp only
  rw [token_to_id_of_get? h]
  simp

/-- C2: the token-to-id and id-to-token maps form a bijection: every
vocabulary token encodes to an id that decodes back to it, and every id
below the vocabulary size decodes to a vocabulary token that encodes back
to the same id. -/
theorem C2_vocab_bijection :
    (∀ t ∈ vocab, decode_token (encode_token t) = t) ∧
    ∀ i, i < vocabSize → decode_token i ∈ vocab ∧
      encode_token (decode_token i) = i := by
  constructor
  · intro t ht
    obtain ⟨j, hj⟩ := lastIdxFrom_isSome 0 ht
    obtain ⟨-, hget⟩ := lastIdxFrom_get hj
    simp only [Nat.sub_zero] at hget
    have henc : encode_token t = j := by
      unfold encode_token token_to_id
      rw [hj]
    have hdec : decode_token j = t := by
      unfold decode_token id_to_token
      rw [hget]
      dsimp only
      unfold token_to_id
      rw [hj]
      simp
    rw [henc, hdec]
  · intro i hi
    have hi' : i < vocab.length := hi
    have hget : vocab.get? i = some (vocab.get ⟨i, hi'⟩) := List.get?_eq_get hi'
    rw [decode_of_get? hget]
    exact ⟨List.get_mem _ _ _, encode_of_get? hget⟩

/-- C2 (witness): instantiated at the token `[PAD]` and the id 0. -/
theorem C2_vocab_bijection_witness :
    ("[PAD]" ∈ vocab ∧ decode_token (encode_token "[PAD]") = "[PAD]") ∧
    (0 < vocabSize ∧ decode_token 0 ∈ vocab ∧
      encode_token (decode_token 0) = 0) := by
  have h0 : (0 : ℕ) < vocabSize :=
    List.length_pos.mpr (by decide)
  exact ⟨⟨by decide, C2_vocab_bijection.1 "[PAD]" (by decide)⟩,
    h0, C2_vocab_bijection.2 0 h0⟩

/-- C9 (counterexample): the control-token family does not contain 24
tokens. -/
theorem C9_counterexample : ¬ control_tokens.length = 24 := by decide

/-- C9 (amended): the control-token family added at vocabulary construction
contains exactly 23 tokens. -/
theorem C9_control_token_count : control_tokens.length = 23 := by decide

/-- C8: `encode_notes` on the empty note list returns exactly the
`[BOS]`/`[EOS]` token pair with their vocabulary ids 1 and 2, metadata with
zero notes and zero duration and no further keys, and an empty note list. -/
theorem C8_encode_notes_empty :
    encode_notes [] "" =
      { tokens := ["[BOS]", "[EOS]"],
        token_ids := [1, 2],
        metadata := { num_notes := 0, duration := 0 },
        notes := [] } ∧
    encode_token "[BOS]" = 1 ∧ encode_token "[EOS]" = 2 := by
  have h1 : encode_token "[BOS]" = 1 := encode_of_get? (by decide)
  have h2 : encode_token "[EOS]" = 2 := encode_of_get? (by decide)
  refine ⟨?_, h1, h2⟩
  simp [encode_notes, h1, h2]

/-- C1 (counterexample): a single consistent, gapless note whose duration
(`dotted_quarter`) is drawn from the configured duration set decodes to the
empty list after encoding, because its compound token splits into five
underscore-separated fields. -/
theorem C1_counterexample :
    gapless 0 [dottedNote] ∧ (∀ n ∈ [dottedNote], consistentNote n) ∧
    tokens_to_notes (encode_notes [dottedNote] "").tokens = [] ∧
    ¬ (tokens_to_notes (encode_notes [dottedNote] "").tokens).length =
        [dottedNote].length := by
  refine ⟨by decide, by decide, by decide, by decide⟩

/-- C5 (counterexample): four notes forming two adjacent blocks of two with
equal interval profiles, yet sequence detection emits nothing, because the
start-index range `range(len(notes) - pattern_size * 2)` excludes the only
qualifying start. -/
theorem C5_counterexample :
    blockIntervals fourAlternating 2 2 = blockIntervals fourAlternating 0 2 ∧
    fourAlternating.length = 2 * 2 ∧
    detect_sequences fourAlternating = [] := by
  refine ⟨by decide, by decide, by decide⟩

/-- C6 (counterexample): a gap of 6/5 beats exceeds the 0.1 tolerance and is
not within tolerance of any named duration, yet the emitted rest token is
`REST_quarter`, not `REST_sixteenth`. -/
theorem C6_counterexample :
    notes_to_tokens
        [{ pitch := 60, start_time := 6/5, end_time := 11/5, velocity := 65,
           pitch_name := "C4", duration_name := "quarter",
           dynamic_name := "mf" }] =
      ["[BOS]", "REST_quarter", "NOTE_C4_quarter_mf", "[EOS]"] ∧
    (∀ x ∈ durKeys, ¬ |(6/5 : ℚ) - x| < 1/10) ∧
    (0 : ℚ) + 1/10 < 6/5 := by
  refine ⟨by decide, by decide, by decide⟩

/-- C7 (counterexample): a `NOTE` token with the unrecognized dynamic name
`zz` is not skipped: decoding emits a note for it, with the default
velocity 65. -/
theorem C7_counterexample :
    ¬ "zz" ∈ dynamics_config ∧
    tokens_to_notes ["NOTE_C4_quarter_zz"] =
      [{ pitch := 60, start_time := 0, end_time := 1, velocity := 65,
         pitch_name := "C4", duration_name := "quarter",
         dynamic_name := "zz" }] := by
  refine ⟨by decide, by decide⟩

/-! ### C10: positive note durations -/

theorem duration_name_to_beats_pos (s : String) : 0 < duration_name_to_beats s := by
  unfold duration_name_to_beats
  split_ifs <;> norm_num

/-- Success shape of `parse_note_token`: a parsed note comes from a token
that splits into exactly the four expected fields with a recognized pitch
name, and its fields are determined by those of the token. -/
theorem parse_note_token_some {tok : String} {start : ℚ} {n : SMTNote}
    (h : parse_note_token tok start = some n) :
    ∃ pn dn dyn p, pySplitU tok = ["NOTE", pn, dn, dyn] ∧
      pitch_name_to_midi pn = some p ∧
      n = { pitch := p, start_time := start,
            end_time := start + duration_name_to_beats dn,
            velocity := dynamic_to_velocity dyn,
            pitch_name := pn, duration_name := dn, dynamic_name := dyn } := by
  unfold parse_note_token at h
  split at h
  · rename_i pn dn dyn heq
    split at h
    · rename_i p hp
      exact ⟨pn, dn, dyn, p, heq, hp, (Option.some_inj.mp h).symm⟩
    · simp at h
  · simp at h

/-- C10: every note produced by quantization with a positive grid, and
every note constructed while decoding a `NOTE_*` token, has
`end_time > start_time`; moreover every duration name maps to a strictly
positive beat value. -/
theorem C10_positive_durations :
    (∀ (g : ℕ), 0 < g → ∀ (notes : List SMTNote) (n : SMTNote),
      n ∈ quantize_notes notes g → n.start_time < n.end_time) ∧
    (∀ (tok : String) (t : ℚ) (n : SMTNote),
      parse_note_token tok t = some n → n.start_time < n.end_time) ∧
    (∀ s : String, 0 < duration_name_to_beats s) := by
  refine ⟨?_, ?_, duration_name_to_beats_pos⟩
  · intro g hg notes n hn
    simp only [quantize_notes, List.mem_map] at hn
    obtain ⟨m, -, rfl⟩ := hn
    have hbs : (0:ℚ) < 1 / ((g:ℚ)/4) := by
      have hq : (0:ℚ) < (g:ℚ) := by exact_mod_cast hg
      positivity
    simp only [quantize_note]
    have hle : 1 / ((g:ℚ)/4) ≤
        max ((pyRound ((m.end_time - m.start_time) / (1 / ((g:ℚ)/4))) : ℚ) *
          (1 / ((g:ℚ)/4))) (1 / ((g:ℚ)/4)) := le_max_right _ _
    linarith
  · intro tok t n h
    obtain ⟨pn, dn, dyn, p, -, -, rfl⟩ := parse_note_token_some h
    dsimp only
    have := duration_name_to_beats_pos dn
    linarith

/-- C10 (witness): a concrete quantized note and a concrete parsed note. -/
theorem C10_positive_durations_witness :
    (0 < 16 ∧ c4Quarter ∈ quantize_notes [c4Quarter] 16 ∧
      c4Quarter.start_time < c4Quarter.end_time) ∧
    (parse_note_token "NOTE_A4_half_mf" 2 =
        some { pitch := 69, start_time := 2, end_time := 4, velocity := 65,
               pitch_name := "A4", duration_name := "half",
               dynamic_name := "mf" } ∧
      (2:ℚ) < 4) ∧
    (0:ℚ) < duration_name_to_beats "zzz" := by
  refine ⟨⟨by decide, by decide,
    C10_positive_durations.1 16 (by decide) [c4Quarter] c4Quarter (by decide)⟩,
    ⟨by decide, ?_⟩, C10_positive_durations.2.2 "zzz"⟩
  exact C10_positive_durations.2.1 "NOTE_A4_half_mf" 2
    { pitch := 69, start_time := 2, end_time := 4, velocity := 65,
      pitch_name := "A4", duration_name := "half", dynamic_name := "mf" }
    (by decide)

/-! ### C4: quantization idempotence -/

theorem pyRound_intCast (z : ℤ) : pyRound ((z : ℤ) : ℚ) = z := by
  unfold pyRound
  rw [Int.floor_intCast]
  norm_num

theorem quantize_note_idem {bs : ℚ} (hbs : 0 < bs) (a : SMTNote) :
    quantize_note bs (quantize_note bs a) = quantize_note bs a := by
  have hbs0 : bs ≠ 0 := ne_of_gt hbs
  simp only [quantize_note]
  set r : ℤ := pyRound (a.start_time / bs) with hr
  set r' : ℤ := pyRound ((a.end_time - a.start_time) / bs) with hr₂
  have hcancel : ∀ z : ℤ, ((z:ℚ) * bs) / bs = (z:ℚ) :=
    fun z => mul_div_cancel_right₀ _ hbs0
  have hqd : max ((r':ℚ) * bs) bs = ((max r' 1 : ℤ) : ℚ) * bs := by
    push_cast
    rw [max_mul_of_nonneg _ _ (le_of_lt hbs), one_mul]
  have hs2 : (pyRound (((r:ℚ) * bs) / bs) : ℚ) * bs = (r:ℚ) * bs := by
    rw [hcancel r, pyRound_intCast]
  have hd2 : ((r:ℚ) * bs + max ((r':ℚ) * bs) bs) - (r:ℚ) * bs =
      max ((r':ℚ) * bs) bs := by ring
  have hqd2 : max ((pyRound ((((r:ℚ) * bs + max ((r':ℚ) * bs) bs) -
      (r:ℚ) * bs) / bs) : ℚ) * bs) bs = max ((r':ℚ) * bs) bs := by
    rw [hd2, hqd, hcancel (max r' 1), pyRound_intCast]
    have h1 : (1:ℚ) ≤ ((max r' 1 : ℤ) : ℚ) := by
      exact_mod_cast le_max_right r' 1
    have h2 : bs ≤ ((max r' 1 : ℤ) : ℚ) * bs := by
      nlinarith
    rw [max_eq_left h2]
  rw [hs2, hqd2]

/-- C4: quantization with a positive grid is idempotent: re-quantizing an
already-quantized note list with the same grid returns it unchanged, all
fields included. -/
theorem C4_quantize_idempotence (g : ℕ) (hg : 0 < g) (notes : List SMTNote) :
    quantize_notes (quantize_notes notes g) g = quantize_notes notes g := by
  have hbs : (0:ℚ) < 1 / ((g:ℚ)/4) := by
    have hq : (0:ℚ) < (g:ℚ) := by exact_mod_cast hg
    positivity
  simp only [quantize_notes, List.map_map]
  apply List.map_congr_left
  intro a _
  simp only [Function.comp_apply]
  exact quantize_note_idem hbs a

/-- C4 (witness): idempotence at grid 16 on a one-note list. -/
theorem C4_quantize_idempotence_witness :
    0 < 16 ∧ quantize_notes (quantize_notes [c4Quarter] 16) 16 =
      quantize_notes [c4Quarter] 16 :=
  ⟨by decide, C4_quantize_idempotence 16 (by decide) [c4Quarter]⟩

/-! ### C6: rest token naming -/

theorem closest_foldl_le (d : ℚ) :
    ∀ (l : List ℚ) (a : ℚ),
      |l.foldl (fun best x => if |x - d| < |best - d| then x else best) a - d|
        ≤ |a - d| ∧
      ∀ x ∈ l,
        |l.foldl (fun best x => if |x - d| < |best - d| then x else best) a - d|
          ≤ |x - d| := by
  intro l
  induction l with
  | nil => intro a; exact ⟨le_refl _, by simp⟩
  | cons x xs ih =>
    intro a
    rw [List.foldl_cons]
    obtain ⟨h1, h2⟩ := ih (if |x - d| < |a - d| then x else a)
    have hba : |(if |x - d| < |a - d| then x else a) - d| ≤ |a - d| := by
      split_ifs with h
      · exact le_of_lt h
      · exact le_refl _
    have hbx : |(if |x - d| < |a - d| then x else a) - d| ≤ |x - d| := by
      split_ifs with h
      · exact le_refl _
      · exact le_of_not_lt h
    refine ⟨le_trans h1 hba, ?_⟩
    intro y hy
    rcases List.mem_cons.mp hy with rfl | hy'
    · exact le_trans h1 hbx
    · exact h2 y hy'

theorem closest_foldl_mem (d : ℚ) :
    ∀ (l : List ℚ) (a : ℚ),
      l.foldl (fun best x => if |x - d| < |best - d| then x else best) a = a ∨
      l.foldl (fun best x => if |x - d| < |best - d| then x else best) a ∈ l := by
  intro l
  induction l with
  | nil => intro a; exact Or.inl rfl
  | cons x xs ih =>
    intro a
    rw [List.foldl_cons]
    rcases ih (if |x - d| < |a - d| then x else a) with h | h
    · rw [h]
      split_ifs
      · exact Or.inr (List.mem_cons_self _ _)
      · exact Or.inl rfl
    · exact Or.inr (List.mem_cons_of_mem _ h)

theorem closestDuration_mem (d : ℚ) : closestDuration d ∈ durKeys := by
  unfold closestDuration
  rcases closest_foldl_mem d durKeys (1/4) with h | h
  · rw [h]; decide
  · exact h

theorem closestDuration_min (d : ℚ) :
    ∀ x ∈ durKeys, |closestDuration d - d| ≤ |x - d| :=
  (closest_foldl_le d durKeys (1/4)).2

/-- C6 (amended): the rest token emitted for a gap uses the nearest named
duration when the gap is within the 0.1-beat tolerance of it, and falls
back to a QUARTER-note rest (`REST_quarter`) otherwise. -/
theorem C6_rest_token_nearest (d : ℚ) :
    closestDuration d ∈ durKeys ∧
    (∀ x ∈ durKeys, |closestDuration d - d| ≤ |x - d|) ∧
    (|d - closestDuration d| < 1/10 →
      create_rest_token d = "REST_" ++ durName (closestDuration d)) ∧
    (¬ |d - closestDuration d| < 1/10 →
      create_rest_token d = "REST_quarter") := by
  refine ⟨closestDuration_mem d, closestDuration_min d, ?_, ?_⟩
  · intro h
    simp only [create_rest_token, beats_to_duration_name]
    rw [if_pos h]
  · intro h
    simp only [create_rest_token, beats_to_duration_name]
    rw [if_neg h]
    decide

/-- C6 (witness): a gap of 6/5 beats falls back to `REST_quarter`; a gap of
exactly one beat is named by its nearest duration. -/
theorem C6_rest_token_nearest_witness :
    create_rest_token (6/5) = "REST_quarter" ∧
    create_rest_token 1 = "REST_" ++ durName (closestDuration 1) :=
  ⟨(C6_rest_token_nearest (6/5)).2.2.2 (by decide),
   (C6_rest_token_nearest 1).2.2.1 (by decide)⟩

/-! ### C7: malformed note tokens -/

theorem prefixChars_cons {c : Char} {cs l : List Char}
    (h : prefixChars (c :: cs) l = true) :
    ∃ l', l = c :: l' ∧ prefixChars cs l' = true := by
  cases l with
  | nil => simp [prefixChars] at h
  | cons d ds =>
    simp only [prefixChars, Bool.and_eq_true, decide_eq_true_eq] at h
    exact ⟨ds, by rw [h.1], h.2⟩

/-- C7 (amended): a `NOTE` token that does not split into exactly four
underscore fields, or whose pitch name is not recognized, is skipped and
decoding continues with the remaining tokens; a `NOTE` token whose pitch
parses but whose dynamic name is unrecognized is NOT skipped: it produces a
note with the default velocity 65. -/
theorem C7_malformed_note_token :
    (∀ (tok : String) (start : ℚ), (pySplitU tok).length ≠ 4 →
      parse_note_token tok start = none) ∧
    (∀ (tok : String) (start : ℚ) (pn dn dyn : String),
      pySplitU tok = ["NOTE", pn, dn, dyn] → pitch_name_to_midi pn = none →
      parse_note_token tok start = none) ∧
    (∀ (tok : String) (rest : List String) (ct : ℚ) (cb : ℤ),
      pyStarts "NOTE_" tok = true → parse_note_token tok ct = none →
      tokens_to_notes_aux (tok :: rest) ct cb = tokens_to_notes_aux rest ct cb) ∧
    (∀ (tok : String) (start : ℚ) (pn dn dyn : String) (p : ℤ),
      pySplitU tok = ["NOTE", pn, dn, dyn] → pitch_name_to_midi pn = some p →
      dyn ∉ dynamics_config →
      parse_note_token tok start =
        some { pitch := p, start_time := start,
               end_time := start + duration_name_to_beats dn, velocity := 65,
               pitch_name := pn, duration_name := dn, dynamic_name := dyn }) := by
  refine ⟨?len4, ?badpitch, ?skip, ?baddyn⟩
  · intro tok start hlen
    cases hp : parse_note_token tok start with
    | none => rfl
    | some n =>
      obtain ⟨pn, dn, dyn, p, heq, -, -⟩ := parse_note_token_some hp
      rw [heq] at hlen
      simp at hlen
  · intro tok start pn dn dyn heq hnone
    cases hp : parse_note_token tok start with
    | none => rfl
    | some n =>
      obtain ⟨pn', dn', dyn', p, heq', hsome, -⟩ := parse_note_token_some hp
      rw [heq] at heq'
      simp only [List.cons.injEq] at heq'
      obtain ⟨-, hpn, -, -⟩ := heq'
      rw [← hpn, hnone] at hsome
      simp at hsome
  · intro tok rest ct cb hstart hparse
    have hstart' : prefixChars ('N' :: "OTE_".data) tok.data = true := hstart
    obtain ⟨l', hdata, -⟩ := prefixChars_cons hstart'
    have hne1 : tok ≠ "[BOS]" := by
      intro he; rw [he] at hdata; simp at hdata
    have hne2 : tok ≠ "[EOS]" := by
      intro he; rw [he] at hdata; simp at hdata
    have hne3 : tok ≠ "[PAD]" := by
      intro he; rw [he] at hdata; simp at hdata
    have hne4 : tok ≠ "BAR" := by
      intro he; rw [he] at hdata; simp at hdata
    have hrest : pyStarts "REST_" tok = false := by
      rw [pyStarts, hdata]
      rfl
    simp only [tokens_to_notes_aux, hne1, hne2, hne3, hne4, hrest, hstart,
      hparse, if_false, if_true, or_self, Bool.false_eq_true]
  · intro tok start pn dn dyn p heq hsome hdyn
    simp only [dynamics_config, List.mem_cons, List.not_mem_nil, not_or] at hdyn
    obtain ⟨h1, h2, h3, h4, h5, h6, -⟩ := hdyn
    have hvel : dynamic_to_velocity dyn = 65 := by
      simp [dynamic_to_velocity, h1, h2, h3, h4, h5, h6]
    unfold parse_note_token
    rw [heq]
    simp only [hsome, hvel]

/-- C7 (witness): a two-field token and an unknown-pitch token are skipped;
the skipped token leaves decoding on the remaining tokens; an
unknown-dynamic token produces a note with velocity 65. -/
theorem C7_malformed_note_token_witness :
    parse_note_token "NOTE_C4" 0 = none ∧
    parse_note_token "NOTE_X9_quarter_mf" 0 = none ∧
    tokens_to_notes_aux ["NOTE_X9_quarter_mf", "[EOS]"] 0 0 =
      tokens_to_notes_aux ["[EOS]"] 0 0 ∧
    parse_note_token "NOTE_C4_quarter_zz" 0 =
      some { pitch := 60, start_time := 0, end_time := 1, velocity := 65,
             pitch_name := "C4", duration_name := "quarter",
             dynamic_name := "zz" } := by
  refine ⟨C7_malformed_note_token.1 "NOTE_C4" 0 (by decide),
    C7_malformed_note_token.2.1 "NOTE_X9_quarter_mf" 0 "X9" "quarter" "mf"
      (by decide) (by decide),
    C7_malformed_note_token.2.2.1 "NOTE_X9_quarter_mf" ["[EOS]"] 0 0
      (by decide) (by decide),
    ?_⟩
  have h := C7_malformed_note_token.2.2.2 "NOTE_C4_quarter_zz" 0 "C4" "quarter"
    "zz" 60 (by decide) (by decide) (by decide)
  rw [h]
  decide

/-! ### C3: overlap-resolution disjointness -/

theorem resolve_aux_disjoint :
    ∀ (l : List MusicalPattern) (used : Finset ℕ),
      (∀ p ∈ resolve_overlaps_aux l used, Disjoint (patIndices p) used) ∧
      List.Pairwise (fun a b => Disjoint (patIndices a) (patIndices b))
        (resolve_overlaps_aux l used) := by
  intro l
  induction l with
  | nil =>
    intro used
    exact ⟨by simp [resolve_overlaps_aux], by simp [resolve_overlaps_aux]⟩
  | cons p rest ih =>
    intro used
    simp only [resolve_overlaps_aux]
    split_ifs with hd
    · obtain ⟨h1, h2⟩ := ih (used ∪ patIndices p)
      constructor
      · intro q hq
        rcases List.mem_cons.mp hq with rfl | hq'
        · exact hd
        · exact (Finset.disjoint_union_right.mp (h1 q hq')).1
      · refine List.Pairwise.cons ?_ h2
        intro q hq
        exact ((Finset.disjoint_union_right.mp (h1 q hq)).2).symm
    · exact ih used

/-- C3: any output of overlap resolution is pairwise disjoint on inclusive
note-index ranges, and hence so is any output of `detect_patterns`. -/
theorem C3_overlap_disjoint :
    (∀ ps : List MusicalPattern,
      List.Pairwise (fun a b => Disjoint (patIndices a) (patIndices b))
        (resolve_overlaps ps)) ∧
    ∀ notes : List SMTNote,
      List.Pairwise (fun a b => Disjoint (patIndices a) (patIndices b))
        (detect_patterns notes) := by
  have hr : ∀ ps : List MusicalPattern,
      List.Pairwise (fun a b => Disjoint (patIndices a) (patIndices b))
        (resolve_overlaps ps) :=
    fun ps => (resolve_aux_disjoint _ ∅).2
  refine ⟨hr, fun notes => ?_⟩
  unfold detect_patterns
  split_ifs
  · simp
  · exact hr _

/-! ### C5: sequence detection -/

theorem find_seq_spec (notes : List SMTNote) (ps start : ℕ)
    (hlen : start + ps * 2 ≤ notes.length)
    (heq : blockIntervals notes (start + ps) ps = blockIntervals notes start ps) :
    find_sequence_pattern notes start ps =
      some { pattern_type := "sequence", start_index := start,
             end_index := start + (seq_repetitions notes start ps) * ps - 1,
             confidence := min (9/10)
               (1/2 + ((seq_repetitions notes start ps : ℚ) - 2) * (3/20)),
             description := "Melodic sequence repeated " ++
               toString (seq_repetitions notes start ps) ++ " times",
             notes := (notes.drop start).take
               ((seq_repetitions notes start ps) * ps) } := by
  have hreps : 2 ≤ seq_repetitions notes start ps := by
    unfold seq_repetitions
    rw [seqRepsAux]
    rw [if_pos ⟨by omega, heq⟩]
    omega
  simp only [find_sequence_pattern]
  rw [if_neg (by omega : ¬ notes.length < start + ps * 2), if_pos hreps]

/-- C5 (amended): for block sizes 2..4 and every starting index that leaves
at least one note after the two compared blocks (the scan range
`range(len(notes) - pattern_size * 2)` excludes the final start index), if
the interval profile of the block after `start` equals that of the block at
`start`, then sequence detection emits a `sequence` pattern at `start`
spanning all repeated blocks, with confidence
`min(0.9, 0.5 + (repetitions - 2) * 0.15)`. -/
theorem C5_sequence_detection (notes : List SMTNote) (ps start : ℕ)
    (h2 : 2 ≤ ps) (h4 : ps ≤ 4) (hlt : start + ps * 2 < notes.length)
    (heq : blockIntervals notes (start + ps) ps = blockIntervals notes start ps) :
    ∃ p ∈ detect_sequences notes,
      find_sequence_pattern notes start ps = some p ∧
      p.pattern_type = "sequence" ∧
      p.start_index = start ∧
      p.end_index = start + seq_repetitions notes start ps * ps - 1 ∧
      p.confidence = min (9/10)
        (1/2 + ((seq_repetitions notes start ps : ℚ) - 2) * (3/20)) := by
  have hfind := find_seq_spec notes ps start (le_of_lt hlt) heq
  refine ⟨_, ?_, hfind, rfl, rfl, rfl, rfl⟩
  unfold detect_sequences
  rw [List.mem_flatMap]
  refine ⟨ps, ?_, ?_⟩
  · have hr : List.range' 2 3 = [2, 3, 4] := by decide
    rw [hr]
    interval_cases ps <;> simp
  · rw [List.mem_filterMap]
    exact ⟨start, List.mem_range.mpr (by omega), hfind⟩

/-- C5 (witness): on C4 E4 C4 E4 G4 the two leading blocks of two notes
match, and detection emits the corresponding sequence pattern. -/
theorem C5_sequence_detection_witness :
    find_sequence_pattern fiveNotes 0 2 = some seqPatWitness ∧
    seqPatWitness ∈ detect_sequences fiveNotes := by
  obtain ⟨p, hmem, hfind, -⟩ :=
    C5_sequence_detection fiveNotes 2 0 (by decide) (by decide) (by decide)
      (by decide)
  have hP : find_sequence_pattern fiveNotes 0 2 = some seqPatWitness := by decide
  have hpP : p = seqPatWitness := by
    rw [hfind] at hP
    exact Option.some_inj.mp hP
  exact ⟨hP, hpP ▸ hmem⟩

/-! ### C1: round trip on clean input -/

theorem beats_clean_name_no_sep {d : ℚ} (hd : d ∈ cleanDurationsQ) :
    '_' ∉ (beats_to_duration_name d).data := by
  simp only [cleanDurationsQ, List.not_mem_nil, List.mem_cons, or_false] at hd
  rcases hd with rfl | rfl | rfl | rfl | rfl
  all_goals decide

theorem velocity_dynamic_no_sep (v : ℤ) :
    '_' ∉ (velocity_to_dynamic v).data := by
  unfold velocity_to_dynamic
  split_ifs <;> decide

theorem pitch_roundtrip_aux : ∀ p ∈ Finset.Icc (12:ℤ) 127,
    pitch_name_to_midi (midi_to_pitch_name p) = some p ∧
    '_' ∉ (midi_to_pitch_name p).data := by decide

theorem pitch_roundtrip {p : ℤ} (h1 : 12 ≤ p) (h2 : p ≤ 127) :
    pitch_name_to_midi (midi_to_pitch_name p) = some p ∧
    '_' ∉ (midi_to_pitch_name p).data :=
  pitch_roundtrip_aux p (Finset.mem_Icc.mpr ⟨h1, h2⟩)

theorem parse_create {n : SMTNote} (hn : wfNote n) (t : ℚ) :
    parse_note_token (create_note_token n) t =
      some { pitch := n.pitch, start_time := t,
             end_time := t + duration_name_to_beats n.duration_name,
             velocity := dynamic_to_velocity n.dynamic_name,
             pitch_name := n.pitch_name, duration_name := n.duration_name,
             dynamic_name := n.dynamic_name } := by
  obtain ⟨hp1, hp2, hdur, hpn, hdn, hdyn⟩ := hn
  have hpr := pitch_roundtrip hp1 hp2
  have hsplit : pySplitU (create_note_token n) =
      ["NOTE", n.pitch_name, n.duration_name, n.dynamic_name] := by
    unfold create_note_token pySplitU
    rw [splitU_mkNoteToken _ (hpn ▸ hpr.2)
      (hdyn ▸ velocity_dynamic_no_sep n.velocity)]
    rw [splitU_no_sep (hdn ▸ beats_clean_name_no_sep hdur)]
    rfl
  have hpitch : pitch_name_to_midi n.pitch_name = some n.pitch := by
    rw [hpn]
    exact hpr.1
  unfold parse_note_token
  rw [hsplit]
  split
  · rename_i pn dn dyn hlist
    simp only [List.cons.injEq, and_true] at hlist
    obtain ⟨-, rfl, rfl, rfl⟩ := hlist
    rw [hpitch]
  · rename_i hne
    exact (hne n.pitch_name n.duration_name n.dynamic_name rfl).elim

theorem create_note_starts (n : SMTNote) :
    pyStarts "NOTE_" (create_note_token n) = true := by
  unfold create_note_token
  have hdata : (mkNoteToken n.pitch_name n.duration_name n.dynamic_name).data =
      "NOTE_".data ++ (n.pitch_name.data ++ '_' ::
        (n.duration_name.data ++ '_' :: n.dynamic_name.data)) := by
    rw [data_mkNoteToken]
    rfl
  rw [pyStarts, hdata]
  exact prefixChars_append_self _ _

/-- Decoding a token with the `NOTE_` prefix takes the note branch of the
decode loop: the token is parsed, and either appended or skipped. -/
theorem decode_step_note {tok : String}
    (hstartok : pyStarts "NOTE_" tok = true) (rest : List String)
    (ct : ℚ) (cb : ℤ) :
    tokens_to_notes_aux (tok :: rest) ct cb =
      match parse_note_token tok ct with
      | some n => n :: tokens_to_notes_aux rest n.end_time cb
      | none => tokens_to_notes_aux rest ct cb := by
  have hstart' : prefixChars ('N' :: "OTE_".data) tok.data = true := hstartok
  obtain ⟨l', hdata, -⟩ := prefixChars_cons hstart'
  have hne1 : tok ≠ "[BOS]" := by intro he; rw [he] at hdata; simp at hdata
  have hne2 : tok ≠ "[EOS]" := by intro he; rw [he] at hdata; simp at hdata
  have hne3 : tok ≠ "[PAD]" := by intro he; rw [he] at hdata; simp at hdata
  have hne4 : tok ≠ "BAR" := by intro he; rw [he] at hdata; simp at hdata
  have hrest : pyStarts "REST_" tok = false := by
    rw [pyStarts, hdata]
    rfl
  simp only [tokens_to_notes_aux, hne1, hne2, hne3, hne4, hrest, hstartok,
    if_false, if_true, or_self, Bool.false_eq_true]

/-- Leading `BAR` tokens only update the decode clock and bar counter. -/
theorem decode_aux_bars :
    ∀ (k : ℕ) (ts : List String) (ct : ℚ) (cb : ℤ),
      ∃ ct2 cb2, tokens_to_notes_aux (List.replicate k "BAR" ++ ts) ct cb =
        tokens_to_notes_aux ts ct2 cb2 := by
  intro k
  induction k with
  | zero => intro ts ct cb; exact ⟨ct, cb, rfl⟩
  | succ k ih =>
    intro ts ct cb
    rw [List.replicate_succ, List.cons_append]
    have hstep : tokens_to_notes_aux ("BAR" :: (List.replicate k "BAR" ++ ts))
        ct cb = tokens_to_notes_aux (List.replicate k "BAR" ++ ts)
          (((cb + 1 : ℤ) : ℚ) * beatsPerBar) (cb + 1) := by
      simp [tokens_to_notes_aux]
    rw [hstep]
    exact ih ts _ _

/-- Quantization at grid 16 is the identity on a well-formed note whose
start time sits on the sixteenth grid. -/
theorem quantize_note_id {n : SMTNote} (hn : wfNote n) {k : ℤ}
    (hk : n.start_time = (k : ℚ) / 4) : quantize_note (1/4) n = n := by
  obtain ⟨-, -, hdur, -, hdn, -⟩ := hn
  have hs : (pyRound (n.start_time / (1/4)) : ℚ) * (1/4) = n.start_time := by
    have h1 : n.start_time / (1/4) = (k:ℚ) := by rw [hk]; ring
    rw [h1, pyRound_intCast, hk]
    ring
  have hd : max ((pyRound ((n.end_time - n.start_time) / (1/4)) : ℚ) * (1/4))
      (1/4) = n.end_time - n.start_time := by
    simp only [cleanDurationsQ, List.not_mem_nil, List.mem_cons, or_false] at hdur
    rcases hdur with hc | hc | hc | hc | hc <;> rw [hc] <;> decide
  simp only [quantize_note]
  rw [hs, hd]
  have hend : n.start_time + (n.end_time - n.start_time) = n.end_time := by ring
  rw [hend, ← hdn]

theorem quantize_map_id :
    ∀ (notes : List SMTNote) (t : ℚ), (∃ k : ℤ, t = (k : ℚ) / 4) →
      gapless t notes → (∀ n ∈ notes, wfNote n) →
      notes.map (quantize_note (1/4)) = notes := by
  intro notes
  induction notes with
  | nil => intro t _ _ _; rfl
  | cons n rest ih =>
    intro t ht hg hwf
    obtain ⟨k, hk⟩ := ht
    obtain ⟨hstart, hgrest⟩ := hg
    have hwfn := hwf n (List.mem_cons_self n rest)
    have hkn : n.start_time = (k : ℚ) / 4 := hstart.trans hk
    rw [List.map_cons, quantize_note_id hwfn hkn]
    have hdur := hwfn.2.2.1
    have hend : ∃ k2 : ℤ, n.end_time = (k2 : ℚ) / 4 := by
      simp only [cleanDurationsQ, List.not_mem_nil, List.mem_cons, or_false]
        at hdur
      rcases hdur with h | h | h | h | h
      · exact ⟨k + 1, by push_cast; linarith⟩
      · exact ⟨k + 2, by push_cast; linarith⟩
      · exact ⟨k + 4, by push_cast; linarith⟩
      · exact ⟨k + 8, by push_cast; linarith⟩
      · exact ⟨k + 16, by push_cast; linarith⟩
    rw [ih n.end_time hend hgrest (fun m hm => hwf m (List.mem_cons_of_mem _ hm))]

theorem quantize_identity (notes : List SMTNote) (hg : gapless 0 notes)
    (hwf : ∀ n ∈ notes, wfNote n) : quantize_notes notes 16 = notes := by
  have h0 : ∃ k : ℤ, (0:ℚ) = (k : ℚ) / 4 := ⟨0, by norm_num⟩
  have hbs : (1:ℚ) / (((16:ℕ) : ℚ) / 4) = 1/4 := by norm_num
  simp only [quantize_notes, hbs]
  exact quantize_map_id notes 0 h0 hg hwf

/-- The decode of an encode, note by note: pitches and pitch names are
reproduced, whatever the decode-side clock and bar state. -/
theorem decode_encode_aux :
    ∀ (notes : List SMTNote) (ct barStart ct2 : ℚ) (cb2 : ℤ),
      gapless ct notes → (∀ n ∈ notes, wfNote n) →
      List.Forall₂ (fun a b => b.pitch = a.pitch ∧ b.pitch_name = a.pitch_name)
        notes (tokens_to_notes_aux (notes_to_tokens_aux notes ct barStart)
          ct2 cb2) := by
  intro notes
  induction notes with
  | nil =>
    intro ct barStart ct2 cb2 _ _
    simp [notes_to_tokens_aux, tokens_to_notes_aux]
  | cons n rest ih =>
    intro ct barStart ct2 cb2 hg hwf
    obtain ⟨hstart, hgrest⟩ := hg
    have hwfn := hwf n (List.mem_cons_self n rest)
    have hnorest : ¬ (ct + 1/10 < n.start_time) := by
      rw [hstart]
      linarith
    rw [notes_to_tokens_aux]
    rw [if_neg hnorest]
    rw [List.append_nil, List.append_assoc, List.singleton_append]
    obtain ⟨ct3, cb3, hbars⟩ := decode_aux_bars
      (barCount n.start_time barStart)
      (create_note_token n :: notes_to_tokens_aux rest n.end_time
        (barStart + beatsPerBar * (barCount n.start_time barStart))) ct2 cb2
    rw [hbars]
    rw [decode_step_note (create_note_starts n) _ ct3 cb3]
    rw [parse_create hwfn ct3]
    exact List.Forall₂.cons ⟨rfl, rfl⟩
      (ih n.end_time _ _ cb3 hgrest
        (fun m hm => hwf m (List.mem_cons_of_mem _ hm)))

/-- C1 (amended): for a gapless note sequence whose durations are drawn
from the non-dotted configured durations (sixteenth, eighth, quarter, half,
whole), whose pitches lie in octaves 0..9 (MIDI 12..127), and whose
human-readable fields agree with the numeric fields, decoding the encoded
token sequence yields a note list of the same length reproducing every
pitch and pitch name. -/
theorem C1_roundtrip_clean (notes : List SMTNote)
    (hwf : ∀ n ∈ notes, wfNote n) (hg : gapless 0 notes) :
    (tokens_to_notes (encode_notes notes "").tokens).length = notes.length ∧
    ∀ (i : ℕ) (h1 : i < (tokens_to_notes (encode_notes notes "").tokens).length)
      (h2 : i < notes.length),
      ((tokens_to_notes (encode_notes notes "").tokens).get ⟨i, h1⟩).pitch =
        (notes.get ⟨i, h2⟩).pitch ∧
      ((tokens_to_notes (encode_notes notes "").tokens).get ⟨i, h1⟩).pitch_name =
        (notes.get ⟨i, h2⟩).pitch_name := by
  by_cases hempty : notes = []
  · subst hempty
    refine ⟨by decide, ?_⟩
    intro i h1 h2
    exact absurd h2 (by simp)
  · have htok : (encode_notes notes "").tokens =
        notes_to_tokens (quantize_notes notes 16) := by
      simp [encode_notes, hempty, quantizationGrid]
    rw [htok, quantize_identity notes hg hwf]
    have hbos : tokens_to_notes (notes_to_tokens notes) =
        tokens_to_notes_aux (notes_to_tokens_aux notes 0 0) 0 0 := by
      simp [tokens_to_notes, notes_to_tokens, tokens_to_notes_aux]
    rw [hbos]
    have hf := decode_encode_aux notes 0 0 0 0 hg hwf
    rw [List.forall₂_iff_get] at hf
    obtain ⟨hlen, hget⟩ := hf
    refine ⟨hlen.symm, ?_⟩
    intro i h1 h2
    exact ⟨(hget i h2 h1).1, (hget i h2 h1).2⟩

/-- C1 (witness): a gapless two-note quarter melody C4 E4 satisfies the
premises and decodes to a two-note list. -/
theorem C1_roundtrip_clean_witness :
    (∀ n ∈ [c4Quarter, e4Quarter], wfNote n) ∧
    gapless 0 [c4Quarter, e4Quarter] ∧
    (tokens_to_notes (encode_notes [c4Quarter, e4Quarter] "").tokens).length =
      2 := by
  have h := C1_roundtrip_clean [c4Quarter, e4Quarter] (by decide) (by decide)
  exact ⟨by decide, by decide, h.1.trans rfl⟩

end SMT
